import Mathlib

/-!
Shallow embedding of the call-graph index and tree renderer of
`src/xml2md.py` (`load_analysis_graph`, `_render_tree`, `_children`,
`_entry_link_by_id`), together with proofs settling the specification
claims about them.

Python strings are modelled by `String`, Python string comparison by a
structural lexicographic comparison on the character lists (Python
compares strings lexicographically by code point).  Python `dict`s are
modelled as functions `String → Option v` built by successive update,
and Python `set`s as Lean lists managed with membership-respecting
insertion (`pySetAdd`), so every definition evaluates inside the kernel.
-/

namespace Xml2md

/-! ### Python string comparison

`charListLt` is lexicographic `<` on lists of characters, exactly the
order Python uses on strings (compare code points; a strict prefix is
smaller). -/

/-- Lexicographic strict comparison of two character lists, by code point;
a proper prefix is smaller.  This is Python's `<` on strings. -/
def charListLt : List Char → List Char → Bool
  | [], [] => false
  | [], _ :: _ => true
  | _ :: _, [] => false
  | a :: as, b :: bs =>
    if a < b then true
    else if b < a then false
    else charListLt as bs

/-- Python's `<` on strings. -/
def pyLt (a b : String) : Bool := charListLt a.data b.data

/-- Python's `≤` on strings (`a ≤ b` iff `¬ b < a`). -/
def pyLe (a b : String) : Bool := !(pyLt b a)

/-- Python's `sorted` on a collection of strings. -/
def pySorted (l : List String) : List String :=
  List.insertionSort (fun a b => pyLe a b = true) l

/-- Python's `str.startswith`, structurally on character lists. -/
def charListIsPfx : List Char → List Char → Bool
  | [], _ => true
  | _ :: _, [] => false
  | a :: as, b :: bs => a == b && charListIsPfx as bs

/-- `pyStartsWith s p` is Python's `s.startswith(p)`. -/
def pyStartsWith (s p : String) : Bool := charListIsPfx p.data s.data

/-- Adding an element to a Python set: a no-op when already present. -/
def pySetAdd (s : List String) (x : String) : List String :=
  if x ∈ s then s else s ++ [x]

/-- Building a Python set from a list (`set(l)`). -/
def pySet (l : List String) : List String := l.foldl pySetAdd []

/-! ### The analysis graph (`load_analysis_graph` in `src/xml2md.py`)

An item of `analysis_result.json` is modelled by `RawItem`: whether it is
a JSON object (`isDict`, Python's `isinstance(item, dict)`), and the
values of the keys the code reads (`type`, `id`, `name`, `file_path`,
`line_start`, `calls`), each `Option`al since `dict.get` may return
`None`. -/

/-- One raw entry of the analysis JSON file, restricted to the keys
`load_analysis_graph` reads. -/
structure RawItem where
  isDict : Bool
  type : Option String
  id : Option String
  name : Option String
  file_path : Option String
  line_start : Option Int
  calls : Option (List String)
deriving DecidableEq

/-- The value stored in `id_to_entry` for a retained function record. -/
structure EntryInfo where
  id : String
  name : Option String
  file_path : Option String
  line_start : Option Int
deriving DecidableEq

/-- The index built by `load_analysis_graph`: `id_to_entry`, `name_to_ids`,
`calls_map` and `callers_map`, each a Python dict modelled as a partial
function. -/
structure AnalysisGraph where
  id_to_entry : String → Option EntryInfo
  name_to_ids : String → Option (List String)
  calls_map : String → Option (List String)
  callers_map : String → Option (List String)

/-- The filter of the first pass: `isinstance(item, dict)`,
`item.get("type") == "func"`, and the id check
`not (not fid or not str(fid).startswith("func_"))`. -/
def keepFunc (it : RawItem) : Bool :=
  it.isDict && it.type == some "func" &&
    (match it.id with
     | none => false
     | some fid => !(fid == "") && pyStartsWith fid "func_")

/-- The entry stored for a retained item. -/
def entryOf (it : RawItem) (fid : String) : EntryInfo :=
  ⟨fid, it.name, it.file_path, it.line_start⟩

/-- One step of the first pass of `load_analysis_graph`: record the entry
under its id (overwriting any earlier occurrence) and, when a non-empty
name is present, add the id to `name_to_ids[name]`. -/
def firstPassStep (acc : (String → Option EntryInfo) × (String → Option (List String)))
    (it : RawItem) : (String → Option EntryInfo) × (String → Option (List String)) :=
  if keepFunc it then
    match it.id with
    | some fid =>
      (fun k => if k = fid then some (entryOf it fid) else acc.1 k,
       match it.name with
       | some n =>
         if n = "" then acc.2
         else fun k => if k = n then some (pySetAdd ((acc.2 n).getD []) fid) else acc.2 k
       | none => acc.2)
    | none => acc
  else acc

/-- First pass of `load_analysis_graph`: build `id_to_entry` and
`name_to_ids`. -/
def firstPass (data : List RawItem) :
    (String → Option EntryInfo) × (String → Option (List String)) :=
  data.foldl firstPassStep (fun _ => none, fun _ => none)

/-- The `callers_map.setdefault(t, set()).add(src_id)` loop of the
second pass: add `src` to the callers set of every target in `tgt`. -/
def addCallers (src : String) (tgt : List String)
    (km : String → Option (List String)) : String → Option (List String) :=
  tgt.foldl
    (fun cm t => fun k =>
      if k = t then some (pySetAdd ((cm t).getD []) src) else cm k)
    km

/-- One step of the second pass of `load_analysis_graph`: for a dict item
of type `"func"` whose id is a key of `id_to_entry`, filter its raw call
list to known ids; if the result is non-empty, set `calls_map[src]` to
that set and add `src` to `callers_map[t]` for every target `t`. -/
def secondPassStep (ite : String → Option EntryInfo)
    (acc : (String → Option (List String)) × (String → Option (List String)))
    (it : RawItem) : (String → Option (List String)) × (String → Option (List String)) :=
  if it.isDict && it.type == some "func" then
    match it.id with
    | some src =>
      if (ite src).isSome then
        let tgt := (it.calls.getD []).filter (fun c => (ite c).isSome)
        if tgt.isEmpty then acc
        else
          (fun k => if k = src then some (pySet tgt) else acc.1 k,
           addCallers src tgt acc.2)
      else acc
    | none => acc
  else acc

/-- Second pass of `load_analysis_graph`: build `calls_map` and
`callers_map` from the retained records. -/
def secondPass (data : List RawItem) (ite : String → Option EntryInfo) :
    (String → Option (List String)) × (String → Option (List String)) :=
  data.foldl (secondPassStep ite) (fun _ => none, fun _ => none)

/-- `load_analysis_graph` (the pure core: JSON already decoded, the
per-path cache elided). -/
def load_analysis_graph (data : List RawItem) : AnalysisGraph :=
  let fp := firstPass data
  let sp := secondPass data fp.1
  ⟨fp.1, fp.2, sp.1, sp.2⟩

/-! ### The tree renderer (`_render_tree` in `xml_to_markdown`)

The renderer's output line `f"{indent}- {label}"` (possibly suffixed
with `" … (循環)"` for a cycle back-edge or `" … (省略)"` at the depth
cutoff), and the omission line `f"{indent}  … (他 N 件省略)"`, are
modelled structurally by `Entry`; `formatEntry` recovers the exact
strings. -/

/-- Traversal direction of `_render_tree`. -/
inductive Direction
  | callees
  | callers
deriving DecidableEq

/-- Annotation on an emitted node: `(循環)` cycle back-edge, or `(省略)`
depth truncation. -/
inductive NodeAnn
  | cycle
  | truncated
deriving DecidableEq

/-- One output line of `_render_tree`: an emitted node at an indent
level, or the omission summary emitted when the fan-out cutoff strikes
(printed at the children's indent level, `depth` being the parent's). -/
inductive Entry
  | node (depth : Nat) (label : String) (ann : Option NodeAnn)
  | omitted (depth : Nat) (count : Nat)
deriving DecidableEq

/-- Indent level at which an entry is emitted. -/
def entryDepth : Entry → Nat
  | .node d _ _ => d
  | .omitted d _ => d

/-- Whether an entry carries the depth-truncation annotation `(省略)`. -/
def isTruncEntry : Entry → Bool
  | .node _ _ (some .truncated) => true
  | _ => false

/-- `_entry_link_by_id` for a run without `docs_root`:
`n = entry.get("name","") or fid`, and when a file path is known the
label is `f"[{n}]({fp}) — {fp}{ln_txt}"`, else the bare `n`. -/
def entryLinkById (g : AnalysisGraph) (fid : String) : String :=
  let name :=
    match g.id_to_entry fid with
    | some e => e.name.getD ""
    | none => ""
  let n := if name = "" then fid else name
  let fp :=
    match g.id_to_entry fid with
    | some e => e.file_path.getD ""
    | none => ""
  let lnTxt :=
    match g.id_to_entry fid with
    | some e =>
      match e.line_start with
      | some ln => ":" ++ toString ln
      | none => ""
    | none => ""
  if fp = "" then n
  else "[" ++ n ++ "](" ++ fp ++ ") — " ++ fp ++ lnTxt

/-- The raw neighbor set looked up by `_children`
(`calls_map.get(fid, ())` or `callers_map.get(fid, ())`). -/
def dirMapGet (g : AnalysisGraph) (dir : Direction) (fid : String) : List String :=
  match dir with
  | .callees => (g.calls_map fid).getD []
  | .callers => (g.callers_map fid).getD []

/-- `_children`: the sorted neighbor ids of `fid` in the requested
direction. -/
def children (g : AnalysisGraph) (dir : Direction) (fid : String) : List String :=
  pySorted (dirMapGet g dir fid)

/-- The recursive `dfs` inside `_render_tree`.  A node already on the
path stack is emitted once as a cycle leaf; a node at the depth cutoff
is emitted as a truncated leaf; otherwise the node is emitted and the
first `maxChildren` of its sorted children are expanded with the node
pushed on the stack, followed by one omission summary when children
were cut off. -/
def dfs (g : AnalysisGraph) (dir : Direction) (maxDepth maxChildren : Nat)
    (fid : String) (depth : Nat) (stack : List String) : List Entry :=
  if fid ∈ stack then
    [Entry.node depth (entryLinkById g fid) (some NodeAnn.cycle)]
  else if _hd : maxDepth ≤ depth then
    [Entry.node depth (entryLinkById g fid) (some NodeAnn.truncated)]
  else
    let ch := children g dir fid
    if ch.isEmpty then
      [Entry.node depth (entryLinkById g fid) none]
    else
      Entry.node depth (entryLinkById g fid) none ::
        ((ch.take maxChildren).map
            (fun cid => dfs g dir maxDepth maxChildren cid (depth + 1) (stack ++ [fid]))).flatten ++
          (if maxChildren < ch.length then
            [Entry.omitted depth (ch.length - maxChildren)]
          else [])
termination_by maxDepth - depth
decreasing_by simp_wf; omega

/-- `_render_tree`: for each starting id in sorted order, run one
depth-first traversal per direct neighbor, each with a fresh path
stack.  The `start` list stands for the Python set `start_ids`
(deduplicated before sorting). -/
def render_tree (g : AnalysisGraph) (start : List String) (dir : Direction)
    (maxDepth maxChildren : Nat) : List Entry :=
  ((pySorted start.dedup).map
      (fun sid =>
        ((children g dir sid).map
            (fun cid => dfs g dir maxDepth maxChildren cid 0 [])).flatten)).flatten

/-- Sequence a list of optional values, failing if any entry is `none`. -/
def seqOpt {α : Type} : List (Option α) → Option (List α)
  | [] => some []
  | none :: _ => none
  | some x :: rest =>
    match seqOpt rest with
    | none => none
    | some xs => some (x :: xs)

/-- Fuel-indexed variant of `dfs`: structurally recursive on `fuel`,
returning `none` when the fuel is exhausted.  Used to state that the
source's recursion terminates within `maxDepth + 1` nested calls. -/
def dfsFuel (g : AnalysisGraph) (dir : Direction) (maxDepth maxChildren : Nat) :
    Nat → String → Nat → List String → Option (List Entry)
  | 0, _, _, _ => none
  | Nat.succ fuel, fid, depth, stack =>
    if fid ∈ stack then
      some [Entry.node depth (entryLinkById g fid) (some NodeAnn.cycle)]
    else if maxDepth ≤ depth then
      some [Entry.node depth (entryLinkById g fid) (some NodeAnn.truncated)]
    else
      let ch := children g dir fid
      if ch.isEmpty then
        some [Entry.node depth (entryLinkById g fid) none]
      else
        match seqOpt ((ch.take maxChildren).map
            (fun cid => dfsFuel g dir maxDepth maxChildren fuel cid (depth + 1) (stack ++ [fid]))) with
        | none => none
        | some rs =>
          some (Entry.node depth (entryLinkById g fid) none :: rs.flatten ++
            (if maxChildren < ch.length then
              [Entry.omitted depth (ch.length - maxChildren)]
            else []))

/-- Fuel-indexed variant of `render_tree`. -/
def render_tree_fuel (fuel : Nat) (g : AnalysisGraph) (start : List String)
    (dir : Direction) (maxDepth maxChildren : Nat) : Option (List Entry) :=
  match seqOpt ((pySorted start.dedup).map
      (fun sid =>
        (seqOpt ((children g dir sid).map
            (fun cid => dfsFuel g dir maxDepth maxChildren fuel cid 0 []))).map List.flatten)) with
  | none => none
  | some rs => some rs.flatten

/-- `isGraphPath g dir a l` holds when `l` is a walk in the call graph
starting at `a`: successive elements are neighbors in direction `dir`.
Its length is the number of edges of the walk. -/
def isGraphPath (g : AnalysisGraph) (dir : Direction) : String → List String → Bool
  | _, [] => true
  | a, b :: rest => (dirMapGet g dir a).contains b && isGraphPath g dir b rest

/-- Indentation prefix: two spaces per depth level. -/
def indentStr (depth : Nat) : String := String.join (List.replicate depth "  ")

/-- The exact output string of an entry, as produced by `_render_tree`. -/
def formatEntry : Entry → String
  | .node d l none => indentStr d ++ "- " ++ l
  | .node d l (some .cycle) => indentStr d ++ "- " ++ l ++ " … (循環)"
  | .node d l (some .truncated) => indentStr d ++ "- " ++ l ++ " … (省略)"
  | .omitted d n => indentStr d ++ "  … (他 " ++ toString n ++ " 件省略)"

/-- The string lines returned by `_render_tree`. -/
def render_tree_lines (g : AnalysisGraph) (start : List String) (dir : Direction)
    (maxDepth maxChildren : Nat) : List String :=
  (render_tree g start dir maxDepth maxChildren).map formatEntry

/-- The id the second pass processes for an item: `some src` when the
item is a dict of type `"func"` whose id is a key of `id_to_entry`
(so the item reaches the body of the second-pass loop). -/
def itemSrc (ite : String → Option EntryInfo) (it : RawItem) : Option String :=
  if it.isDict && it.type == some "func" then
    match it.id with
    | some src => if (ite src).isSome then some src else none
    | none => none
  else none

/-- The (ordered, possibly repeating) list of source ids the second pass
processes. -/
def funcSrcIds (data : List RawItem) (ite : String → Option EntryInfo) : List String :=
  data.filterMap (itemSrc ite)

/-- The call states `(fid, depth, stack)` that `_render_tree`'s `dfs`
is invoked on: one root call per direct neighbor of a starting id (fresh
empty stack), and one recursive call per expanded child of a state whose
guards (not a back-edge, below the depth cutoff, within the first
`maxChildren` children) all passed, with the parent pushed on the
stack. -/
inductive DfsCall (g : AnalysisGraph) (dir : Direction) (start : List String)
    (maxDepth maxChildren : Nat) : String → Nat → List String → Prop
  | root (sid cid : String) :
      sid ∈ start → cid ∈ children g dir sid →
      DfsCall g dir start maxDepth maxChildren cid 0 []
  | child (fid : String) (depth : Nat) (stack : List String) (cid : String) :
      DfsCall g dir start maxDepth maxChildren fid depth stack →
      fid ∉ stack → depth < maxDepth →
      cid ∈ (children g dir fid).take maxChildren →
      DfsCall g dir start maxDepth maxChildren cid (depth + 1) (stack ++ [fid])

/-! ### Concrete indexes and inputs used as test vectors -/

/-- An empty `id_to_entry` table (every label falls back to the id). -/
def noEntries : String → Option EntryInfo := fun _ => none

/-- The two-node mutual cycle `A → B`, `B → A` of the spec's Scenario A
(callers map is the transpose). -/
def gAB : AnalysisGraph :=
  ⟨noEntries, fun _ => none,
   fun fid =>
     if fid = "func_a" then some ["func_b"]
     else if fid = "func_b" then some ["func_a"] else none,
   fun fid =>
     if fid = "func_a" then some ["func_b"]
     else if fid = "func_b" then some ["func_a"] else none⟩

/-- A single function calling itself (`f ∈ calls(f)`). -/
def gSelf : AnalysisGraph :=
  ⟨noEntries, fun _ => none,
   fun fid => if fid = "func_f" then some ["func_f"] else none,
   fun fid => if fid = "func_f" then some ["func_f"] else none⟩

/-- A fan-out node: `func_d` calls `func_e`, `func_f`, `func_g`
(Scenario C). -/
def gFan : AnalysisGraph :=
  ⟨noEntries, fun _ => none,
   fun fid => if fid = "func_d" then some ["func_e", "func_f", "func_g"] else none,
   fun _ => none⟩

/-- A record tagged `"func"` with the non-empty id `"abc"`, which does
not start with `"func_"`. -/
def itNoPfx : RawItem := ⟨true, some "func", some "abc", none, none, none, none⟩

/-- First occurrence of the duplicated id `func_x`, calling `func_a`. -/
def itX1 : RawItem := ⟨true, some "func", some "func_x", none, none, none, some ["func_a"]⟩

/-- The function record `func_a` (no calls). -/
def itA : RawItem := ⟨true, some "func", some "func_a", none, none, none, none⟩

/-- The function record `func_b` (no calls). -/
def itB : RawItem := ⟨true, some "func", some "func_b", none, none, none, none⟩

/-- Second occurrence of the duplicated id `func_x`, calling `func_b`. -/
def itX2 : RawItem := ⟨true, some "func", some "func_x", none, none, none, some ["func_b"]⟩

/-- Input with a duplicated function id: the second pass overwrites
`calls_map["func_x"]` but accumulates into `callers_map`. -/
def dataDup : List RawItem := [itX1, itA, itB, itX2]

/-- The record `func_a` calling `func_b`. -/
def itAcallsB : RawItem := ⟨true, some "func", some "func_a", none, none, none, some ["func_b"]⟩

/-- A well-formed two-record input without duplicate ids. -/
def dataAB : List RawItem := [itAcallsB, itB]

/-! ### Lemmas about the string order and set model -/

theorem charListLt_irrefl : ∀ as : List Char, charListLt as as = false := by
  intro as
  induction as with
  | nil => rfl
  | cons a as ih => simp [charListLt, ih]

theorem charListLt_asymm :
    ∀ as bs : List Char, charListLt as bs = true → charListLt bs as = true → False := by
  intro as
  induction as with
  | nil =>
    intro bs h1 h2
    cases bs with
    | nil => simp [charListLt] at h1
    | cons b bs => simp [charListLt] at h2
  | cons a as ih =>
    intro bs h1 h2
    cases bs with
    | nil => simp [charListLt] at h1
    | cons b bs =>
      by_cases hab : a < b
      · have : ¬ b < a := lt_asymm hab
        simp [charListLt, hab, this] at h2
      · by_cases hba : b < a
        · simp [charListLt, hab, hba] at h1
        · simp [charListLt, hab, hba] at h1 h2
          exact ih bs h1 h2

theorem charListLt_trichotomy :
    ∀ as bs : List Char, charListLt as bs = true ∨ as = bs ∨ charListLt bs as = true := by
  intro as
  induction as with
  | nil =>
    intro bs
    cases bs with
    | nil => exact Or.inr (Or.inl rfl)
    | cons b bs => exact Or.inl rfl
  | cons a as ih =>
    intro bs
    cases bs with
    | nil => exact Or.inr (Or.inr rfl)
    | cons b bs =>
      by_cases hab : a < b
      · exact Or.inl (by simp [charListLt, hab])
      · by_cases hba : b < a
        · exact Or.inr (Or.inr (by simp [charListLt, hba]))
        · have hv : a = b := le_antisymm (not_lt.mp hba) (not_lt.mp hab)
          subst hv
          rcases ih bs with h | h | h
          · exact Or.inl (by simp [charListLt, h])
          · exact Or.inr (Or.inl (by rw [h]))
          · exact Or.inr (Or.inr (by simp [charListLt, h]))

theorem charListLt_trans :
    ∀ as bs cs : List Char, charListLt as bs = true → charListLt bs cs = true →
      charListLt as cs = true := by
  intro as
  induction as with
  | nil =>
    intro bs cs h1 h2
    cases bs with
    | nil => simp [charListLt] at h1
    | cons b bs =>
      cases cs with
      | nil => simp [charListLt] at h2
      | cons c cs => rfl
  | cons a as ih =>
    intro bs cs h1 h2
    cases bs with
    | nil => simp [charListLt] at h1
    | cons b bs =>
      cases cs with
      | nil => simp [charListLt] at h2
      | cons c cs =>
        by_cases hab : a < b
        · by_cases hbc : b < c
          · simp [charListLt, lt_trans hab hbc]
          · by_cases hcb : c < b
            · simp [charListLt, hbc, hcb] at h2
            · have : b = c := le_antisymm (not_lt.mp hcb) (not_lt.mp hbc)
              subst this
              simp [charListLt, hab]
        · by_cases hba : b < a
          · simp [charListLt, hab, hba] at h1
          · have hv : a = b := le_antisymm (not_lt.mp hba) (not_lt.mp hab)
            subst hv
            simp [charListLt, lt_irrefl] at h1
            by_cases hbc : a < c
            · simp [charListLt, hbc]
            · by_cases hcb : c < a
              · simp [charListLt, hbc, hcb] at h2
              · simp [charListLt, hbc, hcb] at h2 ⊢
                exact ih bs cs h1 h2

instance pyLeIsTotal : IsTotal String (fun a b => pyLe a b = true) := by
  constructor
  intro a b
  by_cases h : charListLt b.data a.data = true
  · right
    by_cases h2 : charListLt a.data b.data = true
    · exact absurd (charListLt_asymm _ _ h2 h) (fun f => f)
    · simp [pyLe, pyLt, h2]
  · left
    simp [pyLe, pyLt, h]

instance pyLeIsTrans : IsTrans String (fun a b => pyLe a b = true) := by
  constructor
  intro a b c h1 h2
  simp only [pyLe, pyLt, Bool.not_eq_true'] at h1 h2 ⊢
  by_cases hca : charListLt c.data a.data = true
  · rcases charListLt_trichotomy a.data b.data with h | h | h
    · have := charListLt_trans _ _ _ hca h
      rw [this] at h2
      cases h2
    · rw [h] at hca
      rw [hca] at h2
      cases h2
    · rw [h] at h1
      cases h1
  · simpa using hca

theorem pySorted_sorted (l : List String) :
    List.Sorted (fun a b => pyLe a b = true) (pySorted l) :=
  List.sorted_insertionSort _ l

theorem mem_pySorted {x : String} {l : List String} : x ∈ pySorted l ↔ x ∈ l :=
  (List.perm_insertionSort _ l).mem_iff

theorem mem_pySetAdd {s : List String} {x y : String} :
    y ∈ pySetAdd s x ↔ y ∈ s ∨ y = x := by
  by_cases h : x ∈ s
  · simp only [pySetAdd, if_pos h]
    constructor
    · exact Or.inl
    · rintro (hy | rfl)
      · exact hy
      · exact h
  · simp [pySetAdd, if_neg h]

theorem mem_pySet_aux {x : String} :
    ∀ (l acc : List String), x ∈ l.foldl pySetAdd acc ↔ x ∈ acc ∨ x ∈ l := by
  intro l
  induction l with
  | nil => simp
  | cons a l ih =>
    intro acc
    simp only [List.foldl_cons, ih, mem_pySetAdd, List.mem_cons]
    tauto

theorem mem_pySet {x : String} {l : List String} : x ∈ pySet l ↔ x ∈ l := by
  simp [pySet, mem_pySet_aux]

/-! ### Basic lemmas about the renderer -/

theorem seqOpt_map_some {α β : Type} (l : List α) (f : α → Option β) (g' : α → β)
    (h : ∀ a ∈ l, f a = some (g' a)) : seqOpt (l.map f) = some (l.map g') := by
  induction l with
  | nil => rfl
  | cons a l ih =>
    have ha := h a (List.mem_cons_self a l)
    have hrest := ih (fun x hx => h x (List.mem_cons_of_mem a hx))
    simp only [List.map_cons, seqOpt, ha, hrest]

theorem seqOpt_some_mem {α : Type} :
    ∀ (xs : List (Option α)) (ys : List α), seqOpt xs = some ys →
      ∀ y ∈ ys, some y ∈ xs := by
  intro xs
  induction xs with
  | nil =>
    intro ys h y hy
    simp only [seqOpt, Option.some.injEq] at h
    subst h
    cases hy
  | cons x xs ih =>
    intro ys h y hy
    cases x with
    | none => simp [seqOpt] at h
    | some v =>
      simp only [seqOpt] at h
      cases hseq : seqOpt xs with
      | none => rw [hseq] at h; cases h
      | some zs =>
        rw [hseq] at h
        simp only [Option.some.injEq] at h
        subst h
        rcases List.mem_cons.mp hy with rfl | hmem
        · exact List.mem_cons_self _ _
        · exact List.mem_cons_of_mem _ (ih zs hseq y hmem)

/-- Unfolding of `dfs` on a cycle back-edge: the node is emitted once as
a cycle leaf and the branch stops, whatever the depth. -/
theorem dfs_cycle {g : AnalysisGraph} {dir : Direction} {maxDepth maxChildren : Nat}
    {fid : String} {depth : Nat} {stack : List String} (h : fid ∈ stack) :
    dfs g dir maxDepth maxChildren fid depth stack =
      [Entry.node depth (entryLinkById g fid) (some NodeAnn.cycle)] := by
  rw [dfs]
  simp [h]

/-- Unfolding of `dfs` at the depth cutoff (when not a back-edge). -/
theorem dfs_trunc {g : AnalysisGraph} {dir : Direction} {maxDepth maxChildren : Nat}
    {fid : String} {depth : Nat} {stack : List String} (h : fid ∉ stack)
    (hd : maxDepth ≤ depth) :
    dfs g dir maxDepth maxChildren fid depth stack =
      [Entry.node depth (entryLinkById g fid) (some NodeAnn.truncated)] := by
  rw [dfs]
  simp [h, hd]

/-- Unfolding of `dfs` on a node with no children. -/
theorem dfs_leaf {g : AnalysisGraph} {dir : Direction} {maxDepth maxChildren : Nat}
    {fid : String} {depth : Nat} {stack : List String} (h : fid ∉ stack)
    (hd : depth < maxDepth) (hch : children g dir fid = []) :
    dfs g dir maxDepth maxChildren fid depth stack =
      [Entry.node depth (entryLinkById g fid) none] := by
  rw [dfs]
  simp [h, Nat.not_le.mpr hd, hch]

/-- Unfolding of `dfs` on an expanded node: emit the node, recurse into
the first `maxChildren` children with the node pushed on the stack, then
emit one omission summary if children were cut off. -/
theorem dfs_expand {g : AnalysisGraph} {dir : Direction} {maxDepth maxChildren : Nat}
    {fid : String} {depth : Nat} {stack : List String} (h : fid ∉ stack)
    (hd : depth < maxDepth) (hch : children g dir fid ≠ []) :
    dfs g dir maxDepth maxChildren fid depth stack =
      Entry.node depth (entryLinkById g fid) none ::
        (((children g dir fid).take maxChildren).map
            (fun cid => dfs g dir maxDepth maxChildren cid (depth + 1) (stack ++ [fid]))).flatten ++
          (if maxChildren < (children g dir fid).length then
            [Entry.omitted depth ((children g dir fid).length - maxChildren)]
          else []) := by
  rw [dfs]
  simp [h, Nat.not_le.mpr hd, List.isEmpty_iff, hch]

/-- With more fuel than the remaining depth budget, the fuel-indexed
traversal succeeds and computes exactly `dfs`. -/
theorem dfsFuel_eq_dfs {g : AnalysisGraph} {dir : Direction} {maxDepth maxChildren : Nat} :
    ∀ (fuel : Nat) (fid : String) (depth : Nat) (stack : List String),
      maxDepth - depth < fuel →
      dfsFuel g dir maxDepth maxChildren fuel fid depth stack =
        some (dfs g dir maxDepth maxChildren fid depth stack) := by
  intro fuel
  induction fuel with
  | zero => intro fid depth stack h; omega
  | succ fuel ih =>
    intro fid depth stack h
    by_cases hs : fid ∈ stack
    · rw [dfs_cycle hs]
      simp [dfsFuel, hs]
    · by_cases hd : maxDepth ≤ depth
      · rw [dfs_trunc hs hd]
        simp [dfsFuel, hs, hd]
      · by_cases hch : children g dir fid = []
        · rw [dfs_leaf hs (Nat.not_le.mp hd) hch]
          simp [dfsFuel, hs, hd, hch]
        · rw [dfs_expand hs (Nat.not_le.mp hd) hch]
          have hrec : seqOpt (((children g dir fid).take maxChildren).map
              (fun cid => dfsFuel g dir maxDepth maxChildren fuel cid (depth + 1) (stack ++ [fid]))) =
              some (((children g dir fid).take maxChildren).map
                (fun cid => dfs g dir maxDepth maxChildren cid (depth + 1) (stack ++ [fid]))) :=
            seqOpt_map_some _ _ _ (fun cid _ => ih cid (depth + 1) (stack ++ [fid]) (by omega))
          simp only [dfsFuel, if_neg hs, if_neg hd, List.isEmpty_iff, if_neg hch, hrec]

/-- With fuel `maxDepth + 1`, the fuel-indexed renderer succeeds and
computes exactly `render_tree`. -/
theorem render_tree_fuel_eq (g : AnalysisGraph) (start : List String) (dir : Direction)
    (maxDepth maxChildren : Nat) :
    render_tree_fuel (maxDepth + 1) g start dir maxDepth maxChildren =
      some (render_tree g start dir maxDepth maxChildren) := by
  have houter : seqOpt ((pySorted start.dedup).map
      (fun sid =>
        (seqOpt ((children g dir sid).map
            (fun cid => dfsFuel g dir maxDepth maxChildren (maxDepth + 1) cid 0 []))).map
          List.flatten)) =
      some ((pySorted start.dedup).map
        (fun sid =>
          ((children g dir sid).map
              (fun cid => dfs g dir maxDepth maxChildren cid 0 [])).flatten)) := by
    apply seqOpt_map_some
    intro sid _
    have hinner : seqOpt ((children g dir sid).map
        (fun cid => dfsFuel g dir maxDepth maxChildren (maxDepth + 1) cid 0 [])) =
        some ((children g dir sid).map
          (fun cid => dfs g dir maxDepth maxChildren cid 0 [])) :=
      seqOpt_map_some _ _ _ (fun cid _ => dfsFuel_eq_dfs _ cid 0 [] (by omega))
    rw [hinner]
    rfl
  simp only [render_tree_fuel, houter, render_tree]

/-- Every entry output by the fuel-indexed traversal started at a depth
within the bound lies at indent level at most `maxDepth`. -/
theorem dfsFuel_depth_le {g : AnalysisGraph} {dir : Direction} {maxDepth maxChildren : Nat} :
    ∀ (fuel : Nat) (fid : String) (depth : Nat) (stack : List String) (out : List Entry),
      depth ≤ maxDepth →
      dfsFuel g dir maxDepth maxChildren fuel fid depth stack = some out →
      ∀ e ∈ out, entryDepth e ≤ maxDepth := by
  intro fuel
  induction fuel with
  | zero => intro fid depth stack out _ h; cases h
  | succ fuel ih =>
    intro fid depth stack out hdep h e he
    by_cases hs : fid ∈ stack
    · simp only [dfsFuel, if_pos hs, Option.some.injEq] at h
      subst h
      rcases List.mem_singleton.mp he with rfl
      simpa [entryDepth] using hdep
    · by_cases hd : maxDepth ≤ depth
      · simp only [dfsFuel, if_neg hs, if_pos hd, Option.some.injEq] at h
        subst h
        rcases List.mem_singleton.mp he with rfl
        simpa [entryDepth] using hdep
      · by_cases hch : (children g dir fid).isEmpty
        · simp only [dfsFuel, if_neg hs, if_neg hd, if_pos hch, Option.some.injEq] at h
          subst h
          rcases List.mem_singleton.mp he with rfl
          simpa [entryDepth] using hdep
        · simp only [dfsFuel, if_neg hs, if_neg hd, if_neg hch] at h
          cases hseq : seqOpt (((children g dir fid).take maxChildren).map
              (fun cid =>
                dfsFuel g dir maxDepth maxChildren fuel cid (depth + 1) (stack ++ [fid]))) with
          | none => rw [hseq] at h; cases h
          | some rs =>
            rw [hseq] at h
            simp only [Option.some.injEq] at h
            subst h
            rcases List.mem_cons.mp he with rfl | he2
            · simpa [entryDepth] using hdep
            · rcases List.mem_append.mp he2 with hfl | htail
              · rcases List.mem_flatten.mp hfl with ⟨r, hr, her⟩
                have hsome := seqOpt_some_mem _ _ hseq r hr
                rcases List.mem_map.mp hsome with ⟨cid, _, hcid⟩
                exact ih cid (depth + 1) (stack ++ [fid]) r (by omega) hcid e her
              · by_cases hk : maxChildren < (children g dir fid).length
                · rw [if_pos hk] at htail
                  rcases List.mem_singleton.mp htail with rfl
                  simpa [entryDepth] using hdep
                · rw [if_neg hk] at htail
                  cases htail

/-- Every entry emitted by the renderer lies at indent level at most
`maxDepth`. -/
theorem render_tree_depth_le (g : AnalysisGraph) (start : List String) (dir : Direction)
    (maxDepth maxChildren : Nat) :
    ∀ e ∈ render_tree g start dir maxDepth maxChildren, entryDepth e ≤ maxDepth := by
  intro e he
  rcases List.mem_flatten.mp he with ⟨per, hper, heper⟩
  rcases List.mem_map.mp hper with ⟨sid, _, hsid⟩
  rcases List.mem_flatten.mp (hsid ▸ heper) with ⟨r, hr, her⟩
  rcases List.mem_map.mp hr with ⟨cid, _, hcid⟩
  have hfuel := @dfsFuel_eq_dfs g dir maxDepth maxChildren (maxDepth + 1) cid 0 [] (by omega)
  exact dfsFuel_depth_le (maxDepth + 1) cid 0 [] _ (Nat.zero_le _) hfuel e (hcid ▸ her)

/-! ### Lemmas about the two ingestion passes -/

theorem firstPass_append (l : List RawItem) (it : RawItem) :
    firstPass (l ++ [it]) = firstPassStep (firstPass l) it := by
  simp [firstPass, List.foldl_append]

theorem secondPass_append (l : List RawItem) (it : RawItem)
    (ite : String → Option EntryInfo) :
    secondPass (l ++ [it]) ite = secondPassStep ite (secondPass l ite) it := by
  simp [secondPass, List.foldl_append]

theorem keepFunc_some_id {it : RawItem} (h : keepFunc it = true) :
    ∃ s, it.id = some s := by
  cases hid : it.id with
  | none => rw [keepFunc, hid] at h; simp at h
  | some s => exact ⟨s, rfl⟩

theorem firstPass_fst_step (l : List RawItem) (it : RawItem) (fid : String) :
    (firstPassStep (firstPass l) it).1 fid =
      (if keepFunc it = true then
        (match it.id with
         | some s => if fid = s then some (entryOf it s) else (firstPass l).1 fid
         | none => (firstPass l).1 fid)
      else (firstPass l).1 fid) := by
  rw [firstPassStep]
  by_cases hk : keepFunc it = true
  · rw [if_pos hk, if_pos hk]
    cases it.id with
    | some s => rfl
    | none => rfl
  · rw [if_neg hk, if_neg hk]

theorem firstPass_isSome_iff :
    ∀ (data : List RawItem) (fid : String),
      ((firstPass data).1 fid).isSome = true ↔
        ∃ it ∈ data, keepFunc it = true ∧ it.id = some fid := by
  intro data
  induction data using List.reverseRecOn with
  | nil => intro fid; simp [firstPass]
  | append_singleton l it ih =>
    intro fid
    rw [firstPass_append, firstPass_fst_step]
    by_cases hk : keepFunc it = true
    · obtain ⟨s, hs⟩ := keepFunc_some_id hk
      rw [if_pos hk, hs]
      by_cases hf : fid = s
      · subst hf
        simp only [if_pos rfl, Option.isSome_some]
        constructor
        · intro _
          exact ⟨it, List.mem_append_right _ (List.mem_singleton.mpr rfl), hk, hs⟩
        · intro _; rfl
      · simp only [if_neg hf]
        rw [ih fid]
        constructor
        · rintro ⟨x, hx, hPx⟩
          exact ⟨x, List.mem_append_left _ hx, hPx⟩
        · rintro ⟨x, hx, hPx⟩
          rcases List.mem_append.mp hx with hxl | hxr
          · exact ⟨x, hxl, hPx⟩
          · rcases List.mem_singleton.mp hxr with rfl
            rw [hs] at hPx
            injection hPx.2 with hsf
            exact absurd hsf.symm hf
    · rw [if_neg hk]
      rw [ih fid]
      constructor
      · rintro ⟨x, hx, hPx⟩
        exact ⟨x, List.mem_append_left _ hx, hPx⟩
      · rintro ⟨x, hx, hPx⟩
        rcases List.mem_append.mp hx with hxl | hxr
        · exact ⟨x, hxl, hPx⟩
        · rcases List.mem_singleton.mp hxr with rfl
          exact absurd hPx.1 hk

theorem mem_addCallers (src : String) :
    ∀ (tgt : List String) (km : String → Option (List String)) (k x : String),
      x ∈ ((addCallers src tgt km) k).getD [] ↔
        x ∈ ((km k).getD []) ∨ (x = src ∧ k ∈ tgt) := by
  intro tgt
  induction tgt with
  | nil => simp [addCallers]
  | cons t ts ih =>
    intro km k x
    have hstep : addCallers src (t :: ts) km =
        addCallers src ts
          (fun k => if k = t then some (pySetAdd ((km t).getD []) src) else km k) := by
      simp [addCallers]
    rw [hstep, ih]
    by_cases hkt : k = t
    · subst hkt
      simp only [eq_self_iff_true, if_true, Option.getD_some, mem_pySetAdd, List.mem_cons,
        true_or, and_true]
      tauto
    · simp only [if_neg hkt, List.mem_cons]
      tauto

theorem secondPassStep_of_itemSrc_none {ite : String → Option EntryInfo}
    {acc : (String → Option (List String)) × (String → Option (List String))}
    {it : RawItem} (h : itemSrc ite it = none) :
    secondPassStep ite acc it = acc := by
  rw [secondPassStep]
  rw [itemSrc] at h
  by_cases hP : (it.isDict && it.type == some "func") = true
  · rw [if_pos hP] at h ⊢
    cases hid : it.id with
    | none => simp only [hid]
    | some src =>
      simp only [hid] at h ⊢
      by_cases hsome : (ite src).isSome = true
      · rw [if_pos hsome] at h; cases h
      · simp only [if_neg hsome]
  · rw [if_neg hP]

theorem itemSrc_some {ite : String → Option EntryInfo} {it : RawItem} {src : String}
    (h : itemSrc ite it = some src) :
    (it.isDict && it.type == some "func") = true ∧ it.id = some src ∧
      (ite src).isSome = true := by
  rw [itemSrc] at h
  by_cases hP : (it.isDict && it.type == some "func") = true
  · rw [if_pos hP] at h
    cases hid : it.id with
    | none =>
      simp only [hid] at h
      exact Option.noConfusion h
    | some s =>
      simp only [hid] at h
      by_cases hsome : (ite s).isSome = true
      · rw [if_pos hsome] at h
        cases h
        exact ⟨hP, rfl, hsome⟩
      · rw [if_neg hsome] at h; cases h
  · rw [if_neg hP] at h; cases h

theorem secondPassStep_of_itemSrc_some {ite : String → Option EntryInfo}
    {acc : (String → Option (List String)) × (String → Option (List String))}
    {it : RawItem} {src : String} (h : itemSrc ite it = some src) :
    secondPassStep ite acc it =
      (if ((it.calls.getD []).filter (fun c => (ite c).isSome)).isEmpty then acc
       else
        (fun k =>
          if k = src then some (pySet ((it.calls.getD []).filter (fun c => (ite c).isSome)))
          else acc.1 k,
         addCallers src ((it.calls.getD []).filter (fun c => (ite c).isSome)) acc.2)) := by
  obtain ⟨hP, hid, hsome⟩ := itemSrc_some h
  rw [secondPassStep, if_pos hP]
  simp only [hid]
  simp only [if_pos hsome]

theorem funcSrcIds_append (l : List RawItem) (it : RawItem)
    (ite : String → Option EntryInfo) :
    funcSrcIds (l ++ [it]) ite = funcSrcIds l ite ++ (itemSrc ite it).toList := by
  cases h : itemSrc ite it with
  | none => simp [funcSrcIds, List.filterMap_append, h]
  | some src => simp [funcSrcIds, List.filterMap_append, h]

theorem secondPass_transpose_aux (ite : String → Option EntryInfo) :
    ∀ (data : List RawItem), (funcSrcIds data ite).Nodup →
      (∀ s, ((secondPass data ite).1 s).isSome = true → s ∈ funcSrcIds data ite) ∧
      (∀ f g', g' ∈ ((secondPass data ite).2 f).getD [] ↔
        f ∈ ((secondPass data ite).1 g').getD []) := by
  intro data
  induction data using List.reverseRecOn with
  | nil =>
    intro _
    constructor
    · intro s hs; simp [secondPass] at hs
    · intro f g'; simp [secondPass]
  | append_singleton l it ih =>
    intro hnd
    rw [funcSrcIds_append] at hnd ⊢
    rw [secondPass_append]
    cases hsrc : itemSrc ite it with
    | none =>
      rw [hsrc] at hnd
      simp only [Option.toList_none, List.append_nil] at hnd ⊢
      rw [secondPassStep_of_itemSrc_none hsrc]
      exact ih hnd
    | some src =>
      rw [hsrc] at hnd
      simp only [Option.toList_some] at hnd ⊢
      have hndl : (funcSrcIds l ite).Nodup := (List.nodup_append.mp hnd).1
      have hfresh : src ∉ funcSrcIds l ite := by
        have hdisj := (List.nodup_append.mp hnd).2.2
        intro hmem
        exact hdisj hmem (List.mem_singleton.mpr rfl)
      obtain ⟨ihdom, ihtr⟩ := ih hndl
      rw [secondPassStep_of_itemSrc_some hsrc]
      by_cases htgt : ((it.calls.getD []).filter (fun c => (ite c).isSome)).isEmpty = true
      · rw [if_pos htgt]
        constructor
        · intro s hs
          exact List.mem_append_left _ (ihdom s hs)
        · exact ihtr
      · rw [if_neg htgt]
        dsimp only
        have hcmsrc : (secondPass l ite).1 src = none := by
          cases hv : (secondPass l ite).1 src with
          | none => rfl
          | some v => exact absurd (ihdom src (by rw [hv]; rfl)) hfresh
        constructor
        · intro s hs
          by_cases hss : s = src
          · exact List.mem_append_right _ (List.mem_singleton.mpr hss)
          · simp only [if_neg hss] at hs
            exact List.mem_append_left _ (ihdom s hs)
        · intro f g'
          rw [mem_addCallers]
          by_cases hg : g' = src
          · subst hg
            rw [if_pos rfl]
            simp only [Option.getD_some, mem_pySet]
            have hnotin : g' ∉ ((secondPass l ite).2 f).getD [] := by
              rw [ihtr f g', hcmsrc]
              simp
            constructor
            · rintro (h | ⟨_, h⟩)
              · exact absurd h hnotin
              · exact h
            · intro h
              exact Or.inr ⟨by trivial, h⟩
          · rw [if_neg hg]
            constructor
            · rintro (h | ⟨hgs, _⟩)
              · exact (ihtr f g').mp h
              · exact absurd hgs hg
            · intro h
              exact Or.inl ((ihtr f g').mpr h)

/-! ### Concrete renderings, computed through the fuel-indexed evaluator -/

theorem render_gAB_eq :
    render_tree gAB ["func_a"] Direction.callees 5 30 =
      [Entry.node 0 "func_b" none, Entry.node 1 "func_a" none,
        Entry.node 2 "func_b" (some NodeAnn.cycle)] := by
  have h := render_tree_fuel_eq gAB ["func_a"] Direction.callees 5 30
  have h2 : render_tree_fuel (5 + 1) gAB ["func_a"] Direction.callees 5 30 =
      some [Entry.node 0 "func_b" none, Entry.node 1 "func_a" none,
        Entry.node 2 "func_b" (some NodeAnn.cycle)] := by decide
  exact (Option.some.inj (h2.symm.trans h)).symm

theorem render_gSelf_eq :
    render_tree gSelf ["func_f"] Direction.callees 8 30 =
      [Entry.node 0 "func_f" none, Entry.node 1 "func_f" (some NodeAnn.cycle)] := by
  have h := render_tree_fuel_eq gSelf ["func_f"] Direction.callees 8 30
  have h2 : render_tree_fuel (8 + 1) gSelf ["func_f"] Direction.callees 8 30 =
      some [Entry.node 0 "func_f" none, Entry.node 1 "func_f" (some NodeAnn.cycle)] := by
    decide
  exact (Option.some.inj (h2.symm.trans h)).symm

theorem render_gSelf5_eq :
    render_tree gSelf ["func_f"] Direction.callees 5 30 =
      [Entry.node 0 "func_f" none, Entry.node 1 "func_f" (some NodeAnn.cycle)] := by
  have h := render_tree_fuel_eq gSelf ["func_f"] Direction.callees 5 30
  have h2 : render_tree_fuel (5 + 1) gSelf ["func_f"] Direction.callees 5 30 =
      some [Entry.node 0 "func_f" none, Entry.node 1 "func_f" (some NodeAnn.cycle)] := by
    decide
  exact (Option.some.inj (h2.symm.trans h)).symm

/-! ### The claims -/

/-- C1 (counterexample): on an input with a duplicated function id
(`func_x` occurs twice, first calling `func_a`, last calling `func_b`),
`callers_map` is not the transpose of `calls_map`: `func_x` is recorded
as a caller of `func_a`, yet `func_a` is not in `calls_map[func_x]`
(the last occurrence overwrote it). -/
theorem callers_transpose_cex :
    "func_x" ∈ (((load_analysis_graph dataDup).callers_map "func_a").getD []) ∧
      "func_a" ∉ (((load_analysis_graph dataDup).calls_map "func_x").getD []) := by
  decide

/-- C1 (amended): provided no function id occurs on more than one
processed record, the built index satisfies transpose consistency:
`g'` appears in `callers_map[f]` iff `f` appears in `calls_map[g']`. -/
theorem callers_transpose_of_nodup_ids (data : List RawItem) (f g' : String)
    (hnd : (funcSrcIds data ((firstPass data).1)).Nodup) :
    g' ∈ (((load_analysis_graph data).callers_map f).getD []) ↔
      f ∈ (((load_analysis_graph data).calls_map g').getD []) := by
  have h := (secondPass_transpose_aux ((firstPass data).1) data hnd).2 f g'
  simpa [load_analysis_graph] using h

/-- C1 (witness): the two-record input `dataAB` has pairwise distinct
ids, and the transpose equivalence holds on it at `f = func_b`,
`g' = func_a`. -/
theorem callers_transpose_of_nodup_ids_witness :
    (funcSrcIds dataAB ((firstPass dataAB).1)).Nodup ∧
      ("func_a" ∈ (((load_analysis_graph dataAB).callers_map "func_b").getD []) ↔
        "func_b" ∈ (((load_analysis_graph dataAB).calls_map "func_a").getD [])) :=
  ⟨by decide, callers_transpose_of_nodup_ids dataAB "func_b" "func_a" (by decide)⟩

/-- C2 (counterexample): for the self-loop index `gSelf`
(`func_f ∈ calls(func_f)`), rendering callees from `{func_f}` with the
source defaults does not emit `func_f` as a cycle at depth 0: the
depth-0 entry is unannotated, and the cycle annotation appears at
depth 1. -/
theorem self_loop_cycle_at_depth_zero_cex :
    "func_f" ∈ ((gSelf.calls_map "func_f").getD []) ∧
      Entry.node 0 "func_f" (some NodeAnn.cycle) ∉
        render_tree gSelf ["func_f"] Direction.callees 8 30 ∧
      render_tree gSelf ["func_f"] Direction.callees 8 30 =
        [Entry.node 0 "func_f" none, Entry.node 1 "func_f" (some NodeAnn.cycle)] := by
  refine ⟨by decide, ?_, render_gSelf_eq⟩
  rw [render_gSelf_eq]
  decide

/-- C2 (amended): if `f ∈ calls(f)` then rendering callees from `{f}`
(with a positive depth bound and a fan-out bound admitting all of `f`'s
children) emits `f` unannotated at depth 0 and emits `f` again at
depth 1 annotated as a cycle; the traversal terminates, the fuel-indexed
evaluator succeeding with fuel `maxDepth + 1`. -/
theorem self_loop_cycle_at_depth_one (g : AnalysisGraph) (f : String) (D K : Nat)
    (h1 : f ∈ ((g.calls_map f).getD [])) (h2 : 0 < D)
    (h3 : (children g Direction.callees f).length ≤ K) :
    Entry.node 0 (entryLinkById g f) none ∈ render_tree g [f] Direction.callees D K ∧
      Entry.node 1 (entryLinkById g f) (some NodeAnn.cycle) ∈
        render_tree g [f] Direction.callees D K ∧
      render_tree_fuel (D + 1) g [f] Direction.callees D K =
        some (render_tree g [f] Direction.callees D K) := by
  have hchf : f ∈ children g Direction.callees f := by
    rw [children]
    exact mem_pySorted.mpr h1
  have hne : children g Direction.callees f ≠ [] := List.ne_nil_of_mem hchf
  have hstart : pySorted ([f].dedup) = [f] := by
    simp [pySorted, List.insertionSort]
  have hrt : render_tree g [f] Direction.callees D K =
      ((children g Direction.callees f).map
        (fun cid => dfs g Direction.callees D K cid 0 [])).flatten := by
    rw [render_tree, hstart]
    simp
  refine ⟨?_, ?_, render_tree_fuel_eq g [f] Direction.callees D K⟩
  · rw [hrt]
    apply List.mem_flatten.mpr
    refine ⟨dfs g Direction.callees D K f 0 [], List.mem_map.mpr ⟨f, hchf, rfl⟩, ?_⟩
    rw [dfs_expand (by simp) h2 hne]
    exact List.mem_cons_self _ _
  · rw [hrt]
    apply List.mem_flatten.mpr
    refine ⟨dfs g Direction.callees D K f 0 [], List.mem_map.mpr ⟨f, hchf, rfl⟩, ?_⟩
    rw [dfs_expand (by simp) h2 hne]
    apply List.mem_cons_of_mem
    apply List.mem_append_left
    apply List.mem_flatten.mpr
    refine ⟨dfs g Direction.callees D K f 1 ([] ++ [f]), ?_, ?_⟩
    · apply List.mem_map.mpr
      refine ⟨f, ?_, rfl⟩
      rw [List.take_of_length_le h3]
      exact hchf
    · rw [dfs_cycle (by simp)]
      simp

/-- C2 (witness): the hypotheses of `self_loop_cycle_at_depth_one` hold
for the concrete self-loop index `gSelf` with the source defaults. -/
theorem self_loop_cycle_at_depth_one_witness :
    "func_f" ∈ ((gSelf.calls_map "func_f").getD []) ∧ 0 < 8 ∧
      (children gSelf Direction.callees "func_f").length ≤ 30 ∧
      (Entry.node 0 (entryLinkById gSelf "func_f") none ∈
          render_tree gSelf ["func_f"] Direction.callees 8 30 ∧
        Entry.node 1 (entryLinkById gSelf "func_f") (some NodeAnn.cycle) ∈
          render_tree gSelf ["func_f"] Direction.callees 8 30 ∧
        render_tree_fuel (8 + 1) gSelf ["func_f"] Direction.callees 8 30 =
          some (render_tree gSelf ["func_f"] Direction.callees 8 30)) :=
  ⟨by decide, by decide, by decide,
    self_loop_cycle_at_depth_one gSelf "func_f" 8 30 (by decide) (by decide) (by decide)⟩

/-- C3 (counterexample): for the mutual cycle `A → B`, `B → A`,
rendering callees from `{A}` with `max_depth = 5` does not produce the
claimed two-entry sequence (`B`, then `A` as a cycle one level deeper):
an unannotated `A` is emitted at depth 1, and the cycle annotation falls
on `B` at depth 2. -/
theorem mutual_cycle_scenario_cex :
    render_tree gAB ["func_a"] Direction.callees 5 30 ≠
        [Entry.node 0 "func_b" none, Entry.node 1 "func_a" (some NodeAnn.cycle)] ∧
      Entry.node 1 "func_a" none ∈ render_tree gAB ["func_a"] Direction.callees 5 30 := by
  constructor
  · rw [render_gAB_eq]
    decide
  · rw [render_gAB_eq]
    decide

/-- C3 (amended): for the index with `A → {B}` and `B → {A}`, rendering
callees from `{A}` with `max_depth = 5` produces exactly `B` at depth 0
(unannotated), `A` at depth 1 (unannotated, although `A` is a starting
id), and `B` at depth 2 annotated as a cycle. -/
theorem mutual_cycle_scenario_output :
    render_tree gAB ["func_a"] Direction.callees 5 30 =
      [Entry.node 0 "func_b" none, Entry.node 1 "func_a" none,
        Entry.node 2 "func_b" (some NodeAnn.cycle)] :=
  render_gAB_eq

/-- C4 (counterexample): a dict record tagged `"func"` with the
non-empty id `"abc"` is discarded by ingestion, because the id does not
start with `"func_"`. -/
theorem ingestion_keeps_cex :
    itNoPfx.isDict = true ∧ itNoPfx.type = some "func" ∧ itNoPfx.id = some "abc" ∧
      "abc" ≠ "" ∧ (load_analysis_graph [itNoPfx]).id_to_entry "abc" = none := by
  decide

/-- C4 (amended): `fid` is a key of the built `id_to_entry` iff some
input record is a dict tagged `"func"` whose id is `fid`, is non-empty
and starts with `"func_"` (the `keepFunc` filter); in particular records
without an id are discarded. -/
theorem ingestion_keeps_iff (data : List RawItem) (fid : String) :
    (((load_analysis_graph data).id_to_entry fid).isSome = true) ↔
      ∃ it ∈ data, keepFunc it = true ∧ it.id = some fid := by
  have h := firstPass_isSome_iff data fid
  simpa [load_analysis_graph] using h

/-- C5 (counterexample): the self-loop graph has a walk of 6 edges from
the starting id `func_f`, more than `max_depth = 5`, yet the rendering
contains no depth-truncation annotation (the cycle check pre-empts the
depth cutoff). -/
theorem depth_bound_cex :
    isGraphPath gSelf Direction.callees "func_f"
        ["func_f", "func_f", "func_f", "func_f", "func_f", "func_f"] = true ∧
      (["func_f", "func_f", "func_f", "func_f", "func_f", "func_f"] : List String).length = 6 ∧
      (render_tree gSelf ["func_f"] Direction.callees 5 30).all
        (fun e => !isTruncEntry e) = true := by
  refine ⟨by decide, by decide, ?_⟩
  rw [render_gSelf5_eq]
  decide

/-- C5 (amended): every entry emitted by the renderer lies at indent
level at most `max_depth` (hence within `max_depth + 1` edges of a
starting id), and a node reached at the depth cutoff that is not a
cycle back-edge is emitted with the truncation annotation and not
expanded further; a truncation annotation is not guaranteed merely
because a long walk exists, since cycle back-edges and the fan-out
cutoff can pre-empt it. -/
theorem depth_bound_amended (g : AnalysisGraph) (start : List String) (dir : Direction)
    (maxDepth maxChildren : Nat) :
    (∀ e ∈ render_tree g start dir maxDepth maxChildren, entryDepth e ≤ maxDepth) ∧
      (∀ fid stack, fid ∉ stack →
        dfs g dir maxDepth maxChildren fid maxDepth stack =
          [Entry.node maxDepth (entryLinkById g fid) (some NodeAnn.truncated)]) :=
  ⟨render_tree_depth_le g start dir maxDepth maxChildren,
   fun _ _ h => dfs_trunc h (le_refl maxDepth)⟩

/-- C5 (witness): instance of `depth_bound_amended` on `gSelf`: a node
at the cutoff depth is emitted truncated and unexpanded, and a concrete
emitted entry respects the depth bound. -/
theorem depth_bound_amended_witness :
    dfs gSelf Direction.callees 5 30 "func_x" 5 [] =
        [Entry.node 5 "func_x" (some NodeAnn.truncated)] ∧
      entryDepth (Entry.node 1 "func_f" (some NodeAnn.cycle)) ≤ 5 := by
  constructor
  · exact (depth_bound_amended gSelf ["func_f"] Direction.callees 5 30).2 "func_x" []
      (by simp)
  · refine (depth_bound_amended gSelf ["func_f"] Direction.callees 5 30).1 _ ?_
    rw [render_gSelf5_eq]
    decide

/-- C6: a node whose sorted neighbor list has more than `max_children`
entries expands exactly the first `max_children` of them and emits
exactly one omission summary recording the remaining count; the
neighbors past the cutoff are not expanded from this node. -/
theorem fanout_cutoff (g : AnalysisGraph) (dir : Direction) (maxDepth maxChildren : Nat)
    (fid : String) (depth : Nat) (stack : List String) (h : fid ∉ stack)
    (hd : depth < maxDepth) (hk : maxChildren < (children g dir fid).length) :
    dfs g dir maxDepth maxChildren fid depth stack =
        Entry.node depth (entryLinkById g fid) none ::
          (((children g dir fid).take maxChildren).map
              (fun cid => dfs g dir maxDepth maxChildren cid (depth + 1) (stack ++ [fid]))).flatten ++
            [Entry.omitted depth ((children g dir fid).length - maxChildren)] ∧
      ((children g dir fid).take maxChildren).length = maxChildren := by
  constructor
  · rw [dfs_expand h hd (by intro hnil; rw [hnil] at hk; simp at hk)]
    rw [if_pos hk]
  · rw [List.length_take]
    omega

/-- C6 (witness): `func_d` has the three callees `func_e, func_f,
func_g` and `max_children = 2`: two children are expanded and one
omission summary of count 1 is emitted. -/
theorem fanout_cutoff_witness :
    (dfs gFan Direction.callees 8 2 "func_d" 0 [] =
        Entry.node 0 (entryLinkById gFan "func_d") none ::
          (((children gFan Direction.callees "func_d").take 2).map
              (fun cid => dfs gFan Direction.callees 8 2 cid (0 + 1) ([] ++ ["func_d"]))).flatten ++
            [Entry.omitted 0 ((children gFan Direction.callees "func_d").length - 2)] ∧
      ((children gFan Direction.callees "func_d").take 2).length = 2) :=
  fanout_cutoff gFan Direction.callees 8 2 "func_d" 0 [] (by simp) (by omega) (by decide)

/-- C7: when a node is both a cycle back-edge (already on the path
stack) and at the depth boundary, the cycle annotation wins: the node is
emitted as a cycle leaf, not as a depth truncation. -/
theorem cycle_beats_depth_cutoff (g : AnalysisGraph) (dir : Direction)
    (maxDepth maxChildren : Nat) (fid : String) (depth : Nat) (stack : List String)
    (hs : fid ∈ stack) (hd : maxDepth ≤ depth) :
    dfs g dir maxDepth maxChildren fid depth stack =
        [Entry.node depth (entryLinkById g fid) (some NodeAnn.cycle)] ∧
      dfs g dir maxDepth maxChildren fid depth stack ≠
        [Entry.node depth (entryLinkById g fid) (some NodeAnn.truncated)] := by
  refine ⟨dfs_cycle hs, ?_⟩
  rw [dfs_cycle hs]
  simp

/-- C7 (witness): a back-edge exactly at the depth boundary
(`depth = max_depth = 0`) is annotated as a cycle. -/
theorem cycle_beats_depth_cutoff_witness :
    dfs gAB Direction.callees 0 30 "func_a" 0 ["func_a"] =
        [Entry.node 0 (entryLinkById gAB "func_a") (some NodeAnn.cycle)] ∧
      dfs gAB Direction.callees 0 30 "func_a" 0 ["func_a"] ≠
        [Entry.node 0 (entryLinkById gAB "func_a") (some NodeAnn.truncated)] :=
  cycle_beats_depth_cutoff gAB Direction.callees 0 30 "func_a" 0 ["func_a"]
    (by simp) (le_refl 0)

/-- C8: rendering is deterministic — the renderer is a pure function of
its inputs, and both the starting ids and every node's children are
visited in the fixed lexicographic-by-id order (`pyLe`, Python's string
order). -/
theorem render_deterministic (g : AnalysisGraph) (start : List String) (dir : Direction)
    (maxDepth maxChildren : Nat) :
    render_tree g start dir maxDepth maxChildren =
        render_tree g start dir maxDepth maxChildren ∧
      List.Sorted (fun a b => pyLe a b = true) (pySorted start.dedup) ∧
      ∀ fid, List.Sorted (fun a b => pyLe a b = true) (children g dir fid) :=
  ⟨rfl, pySorted_sorted _, fun _ => pySorted_sorted _⟩

/-- C9: the traversal terminates on every finite index, cyclic or not:
the fuel-indexed evaluator with fuel `max_depth + 1` (the depth cutoff
plus one) never runs out of fuel and computes the renderer's output. -/
theorem traversal_terminates (g : AnalysisGraph) (start : List String) (dir : Direction)
    (maxDepth maxChildren : Nat) :
    render_tree_fuel (maxDepth + 1) g start dir maxDepth maxChildren =
      some (render_tree g start dir maxDepth maxChildren) :=
  render_tree_fuel_eq g start dir maxDepth maxChildren

/-- C10: along every reachable call state of the traversal, the path
stack is pairwise distinct (an id on the stack is never pushed again),
and when every neighbor list draws from a finite id set `S`, the stack
never grows beyond `S.card`. -/
theorem path_stack_nodup (g : AnalysisGraph) (dir : Direction) (start : List String)
    (maxDepth maxChildren : Nat) (S : Finset String)
    (hS : ∀ (d : Direction) (fid c : String), c ∈ children g d fid → c ∈ S)
    (fid : String) (depth : Nat) (stack : List String)
    (h : DfsCall g dir start maxDepth maxChildren fid depth stack) :
    stack.Nodup ∧ stack.length ≤ S.card := by
  have main : ∀ fid depth stack, DfsCall g dir start maxDepth maxChildren fid depth stack →
      fid ∈ S ∧ stack.Nodup ∧ ∀ x ∈ stack, x ∈ S := by
    intro fid depth stack h
    induction h with
    | root sid cid hsid hcid =>
      exact ⟨hS _ _ _ hcid, List.nodup_nil, by simp⟩
    | child fid depth stack cid hcall hnotin hdep hcid ih =>
      refine ⟨hS _ _ _ (List.mem_of_mem_take hcid), ?_, ?_⟩
      · rw [List.nodup_append]
        refine ⟨ih.2.1, List.nodup_singleton _, ?_⟩
        intro a ha hb
        rcases List.mem_singleton.mp hb with rfl
        exact hnotin ha
      · intro x hx
        rcases List.mem_append.mp hx with hxs | hxf
        · exact ih.2.2 x hxs
        · rcases List.mem_singleton.mp hxf with rfl
          exact ih.1
  obtain ⟨_, hnd, hsub⟩ := main fid depth stack h
  refine ⟨hnd, ?_⟩
  calc stack.length = stack.toFinset.card := (List.toFinset_card_of_nodup hnd).symm
    _ ≤ S.card := Finset.card_le_card (fun x hx => hsub x (List.mem_toFinset.mp hx))

/-- C10 (witness): on the mutual-cycle index, the call state reached by
expanding `func_b` (stack `[func_b]`) has a duplicate-free stack whose
length is bounded by the number of known ids. -/
theorem path_stack_nodup_witness :
    (["func_b"] : List String).Nodup ∧
      (["func_b"] : List String).length ≤ ({"func_a", "func_b"} : Finset String).card := by
  have hS : ∀ (d : Direction) (fid c : String),
      c ∈ children gAB d fid → c ∈ ({"func_a", "func_b"} : Finset String) := by
    intro d fid c hc
    rw [children] at hc
    have hc' : c ∈ dirMapGet gAB d fid := mem_pySorted.mp hc
    cases d <;>
      · simp only [dirMapGet, gAB] at hc'
        split_ifs at hc' with hf1 hf2 <;>
          simp only [Option.getD_some, Option.getD_none, List.mem_singleton,
            List.not_mem_nil] at hc'
        · subst hc'; decide
        · subst hc'; decide
  have hroot : DfsCall gAB Direction.callees ["func_a"] 5 30 "func_b" 0 [] :=
    DfsCall.root "func_a" "func_b" (by simp) (by decide)
  have hcall : DfsCall gAB Direction.callees ["func_a"] 5 30 "func_a" 1 ["func_b"] :=
    DfsCall.child "func_b" 0 [] "func_a" hroot (by simp) (by omega) (by decide)
  exact path_stack_nodup gAB Direction.callees ["func_a"] 5 30
    {"func_a", "func_b"} hS "func_a" 1 ["func_b"] hcall

end Xml2md
